import Mathlib

/-!
# Verification of the reaction-diffusion notebook core

Shallow embedding (exact rational arithmetic) of the computational core of
`reaction-diffusion_demo.ipynb`: the periodic 2D Laplacian assembly
(`laplacian_discretization`), the reaction terms (`f_reaction`, `g_reaction`),
the explicit stepper (`forward_euler_step`) and the IMEX loop body.

Machine floats are idealised as `ℚ`; the one genuine error path of the source
(the scalar division `alpha * tau_1 / beta` in `g_reaction`, which raises
`ZeroDivisionError` in Python when `beta = 0`, and the `ValueError` raised by
`scipy.sparse.spdiags` on duplicate diagonal offsets) is modelled with `Option`.
-/

namespace ReactionDiffusion

open Matrix Finset

/-- Mesh spacing used by the operator builder: `delta_x = 2.0 / (m + 1)`. -/
def delta_x (m : ℕ) : ℚ := 2 / (m + 1)

/-- Banded matrix with a constant value on each listed diagonal, the success value
of `scipy.sparse.spdiags(data, offsets, n, n)` when every data vector is constant:
entry `(i, j)` carries the value of the diagonal whose offset is `j - i`. -/
def spdiagsMat (n : ℕ) (ds : List (ℤ × ℚ)) : Matrix (Fin n) (Fin n) ℚ :=
  Matrix.of fun i j =>
    (ds.map fun d => if ((j : ℕ) : ℤ) - ((i : ℕ) : ℤ) = d.1 then d.2 else 0).sum

/-- `scipy.sparse.spdiags` raises `ValueError` when the offset list has duplicate
entries; a successful construction is `some`. -/
def spdiagsConst (n : ℕ) (ds : List (ℤ × ℚ)) : Option (Matrix (Fin n) (Fin n) ℚ) :=
  if (ds.map Prod.fst).Nodup then some (spdiagsMat n ds) else none

/-- Row index of a row-major flattened cell, as used by `scipy.sparse.kron`. -/
def finDiv {m : ℕ} (i : Fin (m * m)) : Fin m :=
  ⟨(i : ℕ) / m,
    (Nat.div_lt_iff_lt_mul
      (Nat.pos_of_ne_zero (by rintro rfl; exact absurd i.2 (by simp)))).mpr i.2⟩

/-- Column index of a row-major flattened cell. -/
def finMod {m : ℕ} (i : Fin (m * m)) : Fin m :=
  ⟨(i : ℕ) % m,
    Nat.mod_lt _ (Nat.pos_of_ne_zero (by rintro rfl; exact absurd i.2 (by simp)))⟩

/-- Kronecker product of two `m × m` matrices in the row-major flattened indexing of
`scipy.sparse.kron`: `kron(A, B)[i, j] = A[i / m, j / m] * B[i % m, j % m]`. -/
def kronF {m : ℕ} (A B : Matrix (Fin m) (Fin m) ℚ) : Matrix (Fin (m * m)) (Fin (m * m)) ℚ :=
  Matrix.of fun i j => A (finDiv i) (finDiv j) * B (finMod i) (finMod j)

/-- The `lil`-format assignment loop of the source:
`for i in range(m): A_periodic[i*m, (i+1)*m - 1] = 1.0; A_periodic[(i+1)*m - 1, i*m] = 1.0`.
The touched positions are exactly those with row index a multiple of `m` and column
index `row + (m - 1)`, or symmetrically. -/
def lilSetPeriodic (m : ℕ) (P : Matrix (Fin (m * m)) (Fin (m * m)) ℚ) :
    Matrix (Fin (m * m)) (Fin (m * m)) ℚ :=
  Matrix.of fun i j =>
    if ((i : ℕ) % m = 0 ∧ (j : ℕ) = (i : ℕ) + (m - 1)) ∨
       ((j : ℕ) % m = 0 ∧ (i : ℕ) = (j : ℕ) + (m - 1)) then 1
    else P i j

/-- The success value of `laplacian_discretization m`:
`(kron(I, T) + kron(S, I) + A_periodic) / delta_x ** 2` with
`T = spdiags([e, -4e, e], [-1, 0, 1])`, `S = spdiags([e, e], [-1, 1])` and
`A_periodic = spdiags([e, e], [m - m**2, m**2 - m])` patched by the boundary loop. -/
def lapA (m : ℕ) : Matrix (Fin (m * m)) (Fin (m * m)) ℚ :=
  ((delta_x m) ^ 2)⁻¹ •
    (kronF 1 (spdiagsMat m [(-1, 1), (0, -4), (1, 1)]) +
     kronF (spdiagsMat m [(-1, 1), (1, 1)]) 1 +
     lilSetPeriodic m
       (spdiagsMat (m * m) [((m : ℤ) - (m : ℤ) * (m : ℤ), 1), ((m : ℤ) * (m : ℤ) - (m : ℤ), 1)]))

/-- `laplacian_discretization(m)` from the source: builds
`A = kron(I, T) + kron(S, I)`, adds the periodic wrap matrix
`spdiags([e, e], [m - m**2, m**2 - m], m**2, m**2)` patched at the row seams,
divides by `delta_x ** 2`.  The `spdiags` calls propagate the `ValueError`
raised on duplicate offsets (which happens exactly when `m**2 - m = m - m**2`,
i.e. for `m = 0` and `m = 1`). -/
def laplacian_discretization (m : ℕ) :
    Option (Matrix (Fin (m * m)) (Fin (m * m)) ℚ) :=
  (spdiagsConst m [(-1, 1), (0, -4), (1, 1)]).bind fun T =>
  (spdiagsConst m [(-1, 1), (1, 1)]).bind fun S =>
  (spdiagsConst (m * m) [((m : ℤ) - (m : ℤ) * (m : ℤ), 1), ((m : ℤ) * (m : ℤ) - (m : ℤ), 1)]).bind
    fun P =>
  some (((delta_x m) ^ 2)⁻¹ • (kronF 1 T + kronF S 1 + lilSetPeriodic m P))

lemma lap_eq_some (m : ℕ) (hm : 2 ≤ m) :
    laplacian_discretization m = some (lapA m) := by
  have h3 : ((m : ℤ) - (m : ℤ) * (m : ℤ)) ≠ ((m : ℤ) * (m : ℤ) - (m : ℤ)) := by
    have hm2 : (2 : ℤ) ≤ (m : ℤ) := by exact_mod_cast hm
    nlinarith
  unfold laplacian_discretization spdiagsConst
  rw [if_pos (by decide), if_pos (by decide), if_pos (by simp [h3])]
  rfl

lemma lap_none (m : ℕ) (hm : m < 2) : laplacian_discretization m = none := by
  interval_cases m <;> rfl

/-! ## Row-major flattening arithmetic -/

lemma flat_div (m a b : ℕ) (hb : b < m) : (a * m + b) / m = a := by
  have hm : 0 < m := lt_of_le_of_lt (Nat.zero_le b) hb
  rw [add_comm, mul_comm, Nat.add_mul_div_left _ _ hm, Nat.div_eq_of_lt hb, zero_add]

lemma flat_mod (m a b : ℕ) (hb : b < m) : (a * m + b) % m = b := by
  rw [add_comm, Nat.add_mul_mod_self_right, Nat.mod_eq_of_lt hb]

lemma flat_eq_iff (m a b a2 b2 : ℕ) (hb : b < m) (hb2 : b2 < m) :
    a * m + b = a2 * m + b2 ↔ a = a2 ∧ b = b2 := by
  constructor
  · intro h
    have h1 : (a * m + b) / m = (a2 * m + b2) / m := by rw [h]
    have h2 : (a * m + b) % m = (a2 * m + b2) % m := by rw [h]
    rw [flat_div m a b hb, flat_div m a2 b2 hb2] at h1
    rw [flat_mod m a b hb, flat_mod m a2 b2 hb2] at h2
    exact ⟨h1, h2⟩
  · rintro ⟨rfl, rfl⟩; rfl

/-- The positive periodic `spdiags` offset `m**2 - m` links row `0` to row `m - 1`. -/
lemma periodic_iff (m ri ci rj cj : ℕ) (hm : 2 ≤ m)
    (hri : ri < m) (hrj : rj < m) (hci : ci < m) (hcj : cj < m) :
    ((rj : ℤ) * m + cj - ((ri : ℤ) * m + ci) = (m : ℤ) * m - m) ↔
      (ri = 0 ∧ rj = m - 1 ∧ cj = ci) := by
  have hmZ : (2 : ℤ) ≤ (m : ℤ) := by exact_mod_cast hm
  have hriZ : (ri : ℤ) < m := by exact_mod_cast hri
  have hrjZ : (rj : ℤ) < m := by exact_mod_cast hrj
  have hciZ : (ci : ℤ) < m := by exact_mod_cast hci
  have hcjZ : (cj : ℤ) < m := by exact_mod_cast hcj
  constructor
  · intro h
    have hk : (cj : ℤ) - ci = ((m : ℤ) - 1 - ((rj : ℤ) - ri)) * m := by ring_nf; linarith
    rcases lt_trichotomy ((m : ℤ) - 1 - ((rj : ℤ) - ri)) 0 with hlt | heq | hgt
    · exfalso
      have h1 : ((m : ℤ) - 1 - ((rj : ℤ) - ri)) * m ≤ (-1) * m :=
        mul_le_mul_of_nonneg_right (by omega) (by omega)
      have h2 : (cj : ℤ) - ci ≤ (-1) * m := by rw [hk]; exact h1
      omega
    · rw [heq, zero_mul] at hk
      refine ⟨?_, ?_, ?_⟩ <;> omega
    · exfalso
      have h1 : (1 : ℤ) * m ≤ ((m : ℤ) - 1 - ((rj : ℤ) - ri)) * m :=
        mul_le_mul_of_nonneg_right (by omega) (by omega)
      have h2 : (1 : ℤ) * m ≤ (cj : ℤ) - ci := by rw [hk]; exact h1
      omega
  · rintro ⟨h0, h1, h2⟩
    subst h0 h2
    have h1Z : (rj : ℤ) = (m : ℤ) - 1 := by omega
    rw [h1Z]; ring

/-- The negative periodic `spdiags` offset `m - m**2` links row `m - 1` back to row `0`. -/
lemma periodic_iff_neg (m ri ci rj cj : ℕ) (hm : 2 ≤ m)
    (hri : ri < m) (hrj : rj < m) (hci : ci < m) (hcj : cj < m) :
    ((rj : ℤ) * m + cj - ((ri : ℤ) * m + ci) = (m : ℤ) - (m : ℤ) * m) ↔
      (rj = 0 ∧ ri = m - 1 ∧ cj = ci) := by
  have h := periodic_iff m rj cj ri ci hm hrj hri hcj hci
  constructor
  · intro hx
    obtain ⟨h1, h2, h3⟩ := h.mp (by linarith)
    exact ⟨h1, h2, h3.symm⟩
  · rintro ⟨h1, h2, h3⟩
    have := h.mpr ⟨h1, h2, h3.symm⟩
    linarith

/-! ## Grid-neighbour bookkeeping -/

/-- The four periodic-grid neighbours of cell `i = r * m + c` under row-major
flattening: the cells `(r ± 1 mod m, c)` and `(r, c ± 1 mod m)`, with `r - 1 mod m`
written as `(r + (m - 1)) % m`. -/
def isNeighbor (m : ℕ) (i j : Fin (m * m)) : Prop :=
  ((j : ℕ) / m = ((i : ℕ) / m + 1) % m ∧ (j : ℕ) % m = (i : ℕ) % m) ∨
  ((j : ℕ) / m = ((i : ℕ) / m + (m - 1)) % m ∧ (j : ℕ) % m = (i : ℕ) % m) ∨
  ((j : ℕ) / m = (i : ℕ) / m ∧ (j : ℕ) % m = ((i : ℕ) % m + 1) % m) ∨
  ((j : ℕ) / m = (i : ℕ) / m ∧ (j : ℕ) % m = ((i : ℕ) % m + (m - 1)) % m)

instance (m : ℕ) (i j : Fin (m * m)) : Decidable (isNeighbor m i j) := by
  unfold isNeighbor; infer_instance

/-- How many of the four periodic neighbour directions of `i` land on `j`
(for `m = 2` opposite directions coincide, so this can be `2`). -/
def nbrCount (m : ℕ) (i j : Fin (m * m)) : ℚ :=
  (if (j : ℕ) / m = ((i : ℕ) / m + 1) % m ∧ (j : ℕ) % m = (i : ℕ) % m then 1 else 0) +
  (if (j : ℕ) / m = ((i : ℕ) / m + (m - 1)) % m ∧ (j : ℕ) % m = (i : ℕ) % m then 1 else 0) +
  (if (j : ℕ) / m = (i : ℕ) / m ∧ (j : ℕ) % m = ((i : ℕ) % m + 1) % m then 1 else 0) +
  (if (j : ℕ) / m = (i : ℕ) / m ∧ (j : ℕ) % m = ((i : ℕ) % m + (m - 1)) % m then 1 else 0)

lemma ind_mul_ind (p q : Prop) [Decidable p] [Decidable q] (a b : ℚ) :
    (if p then a else 0) * (if q then b else 0) = if p ∧ q then a * b else 0 := by
  split_ifs with h1 h2 h3 <;> simp_all

/-- Down-direction: `(r + 1) % m` is `r + 1` in the interior and wraps to `0` at the seam. -/
lemma g_d1 (m ri ci rj cj : ℕ) (hm : 2 ≤ m) (hri : ri < m) (hrj : rj < m) :
    (if rj = (ri + 1) % m ∧ cj = ci then (1 : ℚ) else 0) =
      (if rj = ri + 1 ∧ ci = cj then 1 else 0) +
      (if rj = 0 ∧ ri = m - 1 ∧ cj = ci then 1 else 0) := by
  rcases Nat.lt_or_ge (ri + 1) m with h | h
  · rw [Nat.mod_eq_of_lt h]
    split_ifs <;> (first | (exfalso; omega) | norm_num)
  · have h1 : ri + 1 = m := by omega
    have hmod : (ri + 1) % m = 0 := by rw [h1]; exact Nat.mod_self m
    rw [hmod]
    split_ifs <;> (first | (exfalso; omega) | norm_num)

/-- Up-direction: `(r + (m - 1)) % m` is `r - 1` in the interior and wraps to `m - 1`. -/
lemma g_d2 (m ri ci rj cj : ℕ) (hm : 2 ≤ m) (hri : ri < m) (hrj : rj < m) :
    (if rj = (ri + (m - 1)) % m ∧ cj = ci then (1 : ℚ) else 0) =
      (if ri = rj + 1 ∧ ci = cj then 1 else 0) +
      (if ri = 0 ∧ rj = m - 1 ∧ cj = ci then 1 else 0) := by
  rcases Nat.eq_zero_or_pos ri with h | h
  · have hmod : (ri + (m - 1)) % m = m - 1 := by
      rw [h, zero_add]; exact Nat.mod_eq_of_lt (by omega)
    rw [hmod]
    split_ifs <;> (first | (exfalso; omega) | norm_num)
  · have hmod : (ri + (m - 1)) % m = ri - 1 := by
      rw [show ri + (m - 1) = (ri - 1) + m by omega, Nat.add_mod_right]
      exact Nat.mod_eq_of_lt (by omega)
    rw [hmod]
    split_ifs <;> (first | (exfalso; omega) | norm_num)

/-- Right-direction: `(c + 1) % m` is `c + 1` in the interior and wraps to `0`. -/
lemma g_d3 (m ri ci rj cj : ℕ) (hm : 2 ≤ m) (hci : ci < m) (hcj : cj < m) :
    (if rj = ri ∧ cj = (ci + 1) % m then (1 : ℚ) else 0) =
      (if ri = rj ∧ cj = ci + 1 then 1 else 0) +
      (if cj = 0 ∧ ri = rj ∧ ci = m - 1 then 1 else 0) := by
  rcases Nat.lt_or_ge (ci + 1) m with h | h
  · rw [Nat.mod_eq_of_lt h]
    split_ifs <;> (first | (exfalso; omega) | norm_num)
  · have h1 : ci + 1 = m := by omega
    have hmod : (ci + 1) % m = 0 := by rw [h1]; exact Nat.mod_self m
    rw [hmod]
    split_ifs <;> (first | (exfalso; omega) | norm_num)

/-- Left-direction: `(c + (m - 1)) % m` is `c - 1` in the interior and wraps to `m - 1`. -/
lemma g_d4 (m ri ci rj cj : ℕ) (hm : 2 ≤ m) (hci : ci < m) (hcj : cj < m) :
    (if rj = ri ∧ cj = (ci + (m - 1)) % m then (1 : ℚ) else 0) =
      (if ri = rj ∧ ci = cj + 1 then 1 else 0) +
      (if ci = 0 ∧ rj = ri ∧ cj = m - 1 then 1 else 0) := by
  rcases Nat.eq_zero_or_pos ci with h | h
  · have hmod : (ci + (m - 1)) % m = m - 1 := by
      rw [h, zero_add]; exact Nat.mod_eq_of_lt (by omega)
    rw [hmod]
    split_ifs <;> (first | (exfalso; omega) | norm_num)
  · have hmod : (ci + (m - 1)) % m = ci - 1 := by
      rw [show ci + (m - 1) = (ci - 1) + m by omega, Nat.add_mod_right]
      exact Nat.mod_eq_of_lt (by omega)
    rw [hmod]
    split_ifs <;> (first | (exfalso; omega) | norm_num)

/-- The `lil` patch positions are disjoint from the periodic `spdiags` diagonals for
`m ≥ 2`, so the patched matrix entry is a plain sum of indicators. -/
lemma lil_split (m ri ci rj cj : ℕ) (hm : 2 ≤ m)
    (hri : ri < m) (hrj : rj < m) (hci : ci < m) (hcj : cj < m) :
    (if (ci = 0 ∧ rj = ri ∧ cj = m - 1) ∨ (cj = 0 ∧ ri = rj ∧ ci = m - 1) then (1 : ℚ)
     else (if rj = 0 ∧ ri = m - 1 ∧ cj = ci then (1 : ℚ) else 0) +
          (if ri = 0 ∧ rj = m - 1 ∧ cj = ci then (1 : ℚ) else 0)) =
      (if ci = 0 ∧ rj = ri ∧ cj = m - 1 then 1 else 0) +
      (if cj = 0 ∧ ri = rj ∧ ci = m - 1 then 1 else 0) +
      (if rj = 0 ∧ ri = m - 1 ∧ cj = ci then 1 else 0) +
      (if ri = 0 ∧ rj = m - 1 ∧ cj = ci then 1 else 0) := by
  split_ifs <;> (first | (exfalso; omega) | norm_num)

/-! ## Condition conversion wrappers for the entry characterisation -/

lemma periodic_cast_pos (m ri ci rj cj : ℕ) (hm : 2 ≤ m)
    (hri : ri < m) (hrj : rj < m) (hci : ci < m) (hcj : cj < m) :
    (((rj * m + cj : ℕ) : ℤ) - ((ri * m + ci : ℕ) : ℤ) = (m : ℤ) * (m : ℤ) - (m : ℤ)) ↔
      (ri = 0 ∧ rj = m - 1 ∧ cj = ci) := by
  rw [show (((rj * m + cj : ℕ) : ℤ) - ((ri * m + ci : ℕ) : ℤ))
      = ((rj : ℤ) * m + cj - ((ri : ℤ) * m + ci)) by push_cast; ring]
  exact periodic_iff m ri ci rj cj hm hri hrj hci hcj

lemma periodic_cast_neg (m ri ci rj cj : ℕ) (hm : 2 ≤ m)
    (hri : ri < m) (hrj : rj < m) (hci : ci < m) (hcj : cj < m) :
    (((rj * m + cj : ℕ) : ℤ) - ((ri * m + ci : ℕ) : ℤ) = (m : ℤ) - (m : ℤ) * (m : ℤ)) ↔
      (rj = 0 ∧ ri = m - 1 ∧ cj = ci) := by
  rw [show (((rj * m + cj : ℕ) : ℤ) - ((ri * m + ci : ℕ) : ℤ))
      = ((rj : ℤ) * m + cj - ((ri : ℤ) * m + ci)) by push_cast; ring]
  exact periodic_iff_neg m ri ci rj cj hm hri hrj hci hcj

lemma lil_iff1 (m ri ci rj cj : ℕ) (hm : 2 ≤ m) (hcj : cj < m) :
    (ci = 0 ∧ rj * m + cj = ri * m + ci + (m - 1)) ↔
      (ci = 0 ∧ rj = ri ∧ cj = m - 1) := by
  constructor
  · rintro ⟨h0, he⟩
    subst h0
    rw [add_zero] at he
    obtain ⟨h1, h2⟩ := (flat_eq_iff m rj cj ri (m - 1) hcj (by omega)).mp he
    exact ⟨rfl, h1, h2⟩
  · rintro ⟨h0, h1, h2⟩
    subst h0 h1 h2
    simp

lemma lil_iff2 (m ri ci rj cj : ℕ) (hm : 2 ≤ m) (hci : ci < m) :
    (cj = 0 ∧ ri * m + ci = rj * m + cj + (m - 1)) ↔
      (cj = 0 ∧ ri = rj ∧ ci = m - 1) := by
  constructor
  · rintro ⟨h0, he⟩
    subst h0
    rw [add_zero] at he
    obtain ⟨h1, h2⟩ := (flat_eq_iff m ri ci rj (m - 1) hci (by omega)).mp he
    exact ⟨rfl, h1, h2⟩
  · rintro ⟨h0, h1, h2⟩
    subst h0 h1 h2
    simp

/-! ## Entry characterisation of the assembled operator -/

/-- Every entry of the assembled Laplacian is `(-4·[i = j] + #neighbour hits) / Δx²`. -/
lemma lapA_apply (m : ℕ) (hm : 2 ≤ m) (i j : Fin (m * m)) :
    lapA m i j = ((if i = j then (-4 : ℚ) else 0) + nbrCount m i j) / (delta_x m) ^ 2 := by
  have hm0 : 0 < m := by omega
  have hdx : (delta_x m) ^ 2 ≠ 0 := by
    unfold delta_x
    have : ((m : ℚ) + 1) ≠ 0 := by positivity
    positivity
  obtain ⟨ri, ci, hri, hci, hi⟩ : ∃ r c, r < m ∧ c < m ∧ (i : ℕ) = r * m + c :=
    ⟨(i : ℕ) / m, (i : ℕ) % m, (Nat.div_lt_iff_lt_mul hm0).mpr i.2, Nat.mod_lt _ hm0,
      by rw [mul_comm ((i : ℕ) / m) m]; exact (Nat.div_add_mod _ _).symm⟩
  obtain ⟨rj, cj, hrj, hcj, hj⟩ : ∃ r c, r < m ∧ c < m ∧ (j : ℕ) = r * m + c :=
    ⟨(j : ℕ) / m, (j : ℕ) % m, (Nat.div_lt_iff_lt_mul hm0).mpr j.2, Nat.mod_lt _ hm0,
      by rw [mul_comm ((j : ℕ) / m) m]; exact (Nat.div_add_mod _ _).symm⟩
  rw [eq_div_iff hdx]
  unfold lapA
  rw [Matrix.smul_apply, smul_eq_mul, mul_comm (((delta_x m) ^ 2)⁻¹) _, mul_assoc,
    inv_mul_cancel₀ hdx, mul_one]
  simp only [Matrix.add_apply, kronF, Matrix.of_apply, lilSetPeriodic, spdiagsMat,
    List.map_cons, List.map_nil, List.sum_cons, List.sum_nil, Matrix.one_apply,
    nbrCount, finDiv, finMod, Fin.mk.injEq, Fin.ext_iff]
  simp only [hi, hj]
  simp only [flat_div m ri ci hci, flat_div m rj cj hcj,
    flat_mod m ri ci hci, flat_mod m rj cj hcj]
  simp only [flat_eq_iff m ri ci rj cj hci hcj]
  simp only [periodic_cast_pos m ri ci rj cj hm hri hrj hci hcj,
    periodic_cast_neg m ri ci rj cj hm hri hrj hci hcj,
    lil_iff1 m ri ci rj cj hm hcj, lil_iff2 m ri ci rj cj hm hci,
    show ((cj : ℤ) - (ci : ℤ) = -1) ↔ (ci = cj + 1) from by omega,
    show ((cj : ℤ) - (ci : ℤ) = 0) ↔ (ci = cj) from by omega,
    show ((cj : ℤ) - (ci : ℤ) = 1) ↔ (cj = ci + 1) from by omega,
    show ((rj : ℤ) - (ri : ℤ) = -1) ↔ (ri = rj + 1) from by omega,
    show ((rj : ℤ) - (ri : ℤ) = 1) ↔ (rj = ri + 1) from by omega]
  simp only [add_zero, mul_add, mul_zero, add_mul, zero_mul, ind_mul_ind, one_mul, mul_one]
  rw [lil_split m ri ci rj cj hm hri hrj hci hcj]
  rw [g_d1 m ri ci rj cj hm hri hrj, g_d2 m ri ci rj cj hm hri hrj,
    g_d3 m ri ci rj cj hm hci hcj, g_d4 m ri ci rj cj hm hci hcj]
  ring

/-! ## Structural facts about the assembled operator -/

lemma mod_succ_eval (m x : ℕ) (hx : x < m) :
    (x + 1) % m = if x + 1 = m then 0 else x + 1 := by
  split_ifs with h
  · rw [h]; exact Nat.mod_self m
  · exact Nat.mod_eq_of_lt (by omega)

lemma mod_pred_eval (m x : ℕ) (hx : x < m) (hm : 2 ≤ m) :
    (x + (m - 1)) % m = if x = 0 then m - 1 else x - 1 := by
  split_ifs with h
  · rw [h, zero_add]; exact Nat.mod_eq_of_lt (by omega)
  · rw [show x + (m - 1) = (x - 1) + m by omega, Nat.add_mod_right]
    exact Nat.mod_eq_of_lt (by omega)

lemma nbrCount_self (m : ℕ) (hm : 2 ≤ m) (i : Fin (m * m)) : nbrCount m i i = 0 := by
  have hm0 : 0 < m := by omega
  have hr : (i : ℕ) / m < m := (Nat.div_lt_iff_lt_mul hm0).mpr i.2
  have hc : (i : ℕ) % m < m := Nat.mod_lt _ hm0
  have h1 : ¬((i : ℕ) / m = ((i : ℕ) / m + 1) % m) := by
    rw [mod_succ_eval m _ hr]; split_ifs <;> omega
  have h2 : ¬((i : ℕ) / m = ((i : ℕ) / m + (m - 1)) % m) := by
    rw [mod_pred_eval m _ hr hm]; split_ifs <;> omega
  have h3 : ¬((i : ℕ) % m = ((i : ℕ) % m + 1) % m) := by
    rw [mod_succ_eval m _ hc]; split_ifs <;> omega
  have h4 : ¬((i : ℕ) % m = ((i : ℕ) % m + (m - 1)) % m) := by
    rw [mod_pred_eval m _ hc hm]; split_ifs <;> omega
  unfold nbrCount
  rw [if_neg (fun h => h1 h.1), if_neg (fun h => h2 h.1),
    if_neg (fun h => h3 h.2), if_neg (fun h => h4 h.2)]
  norm_num

lemma isNeighbor_self_false (m : ℕ) (hm : 2 ≤ m) (i : Fin (m * m)) :
    ¬ isNeighbor m i i := by
  have hm0 : 0 < m := by omega
  have hr : (i : ℕ) / m < m := (Nat.div_lt_iff_lt_mul hm0).mpr i.2
  have hc : (i : ℕ) % m < m := Nat.mod_lt _ hm0
  have h1 : ¬((i : ℕ) / m = ((i : ℕ) / m + 1) % m) := by
    rw [mod_succ_eval m _ hr]; split_ifs <;> omega
  have h2 : ¬((i : ℕ) / m = ((i : ℕ) / m + (m - 1)) % m) := by
    rw [mod_pred_eval m _ hr hm]; split_ifs <;> omega
  have h3 : ¬((i : ℕ) % m = ((i : ℕ) % m + 1) % m) := by
    rw [mod_succ_eval m _ hc]; split_ifs <;> omega
  have h4 : ¬((i : ℕ) % m = ((i : ℕ) % m + (m - 1)) % m) := by
    rw [mod_pred_eval m _ hc hm]; split_ifs <;> omega
  rintro (h | h | h | h)
  · exact h1 h.1
  · exact h2 h.1
  · exact h3 h.2
  · exact h4 h.2

lemma lapA_diag (m : ℕ) (hm : 2 ≤ m) (i : Fin (m * m)) :
    lapA m i i = -4 / (delta_x m) ^ 2 := by
  rw [lapA_apply m hm i i, if_pos rfl, nbrCount_self m hm i, add_zero]

lemma lapA_offdiag (m : ℕ) (hm : 2 ≤ m) (i j : Fin (m * m)) (h : i ≠ j) :
    lapA m i j = nbrCount m i j / (delta_x m) ^ 2 := by
  rw [lapA_apply m hm i j, if_neg h, zero_add]

lemma delta_x_sq_pos (m : ℕ) : 0 < (delta_x m) ^ 2 := by
  unfold delta_x
  have h : (0 : ℚ) < (m : ℚ) + 1 := by positivity
  positivity

lemma nbrCount_nonneg (m : ℕ) (i j : Fin (m * m)) : 0 ≤ nbrCount m i j := by
  unfold nbrCount
  have h : ∀ p : Prop, ∀ h : Decidable p, 0 ≤ @ite ℚ p h 1 0 := by
    intro p h; split_ifs <;> norm_num
  have h1 := h _ (inferInstance : Decidable ((j : ℕ) / m = ((i : ℕ) / m + 1) % m ∧ (j : ℕ) % m = (i : ℕ) % m))
  positivity

lemma lapA_offdiag_nonneg (m : ℕ) (hm : 2 ≤ m) (i j : Fin (m * m)) (h : i ≠ j) :
    0 ≤ lapA m i j := by
  rw [lapA_offdiag m hm i j h]
  exact div_nonneg (nbrCount_nonneg m i j) (le_of_lt (delta_x_sq_pos m))

/-- Summing an indicator of a single grid cell over all flattened indices. -/
lemma sum_pair_ind {M : Type} [AddCommMonoid M] (m : ℕ) (a b : ℕ)
    (ha : a < m) (hb : b < m) (v : M) :
    ∑ j : Fin (m * m), (if (j : ℕ) / m = a ∧ (j : ℕ) % m = b then v else 0) = v := by
  have hlt : a * m + b < m * m := by
    calc a * m + b < a * m + m := by omega
    _ = (a + 1) * m := by ring
    _ ≤ m * m := Nat.mul_le_mul_right m (by omega)
  rw [Finset.sum_eq_single (⟨a * m + b, hlt⟩ : Fin (m * m))]
  · exact if_pos ⟨flat_div m a b hb, flat_mod m a b hb⟩
  · intro c _ hc
    apply if_neg
    rintro ⟨h1, h2⟩
    apply hc
    apply Fin.ext
    show (c : ℕ) = a * m + b
    rw [← h1, ← h2, mul_comm ((c : ℕ) / m) m]
    exact (Nat.div_add_mod _ _).symm
  · exact fun h => absurd (Finset.mem_univ _) h

lemma sum_nbrCount (m : ℕ) (hm : 2 ≤ m) (i : Fin (m * m)) :
    ∑ j, nbrCount m i j = 4 := by
  have hm0 : 0 < m := by omega
  have hr : (i : ℕ) / m < m := (Nat.div_lt_iff_lt_mul hm0).mpr i.2
  have hc : (i : ℕ) % m < m := Nat.mod_lt _ hm0
  unfold nbrCount
  rw [Finset.sum_add_distrib, Finset.sum_add_distrib, Finset.sum_add_distrib]
  rw [sum_pair_ind m _ _ (Nat.mod_lt _ hm0) hc 1, sum_pair_ind m _ _ (Nat.mod_lt _ hm0) hc 1,
    sum_pair_ind m _ _ hr (Nat.mod_lt _ hm0) 1, sum_pair_ind m _ _ hr (Nat.mod_lt _ hm0) 1]
  norm_num

/-- Every row of the assembled Laplacian sums to zero. -/
lemma lapA_row_sum (m : ℕ) (hm : 2 ≤ m) (i : Fin (m * m)) :
    ∑ j, lapA m i j = 0 := by
  simp only [lapA_apply m hm i]
  rw [← Finset.sum_div]
  rw [Finset.sum_add_distrib, Finset.sum_ite_eq, if_pos (Finset.mem_univ i),
    sum_nbrCount m hm i]
  norm_num

lemma succ_pred_mod_symm (m x y : ℕ) (hm : 2 ≤ m) (hx : x < m) (hy : y < m) :
    (y = (x + 1) % m) ↔ (x = (y + (m - 1)) % m) := by
  rw [mod_succ_eval m x hx, mod_pred_eval m y hy hm]
  split_ifs <;> omega

lemma nbrCount_symm (m : ℕ) (hm : 2 ≤ m) (i j : Fin (m * m)) :
    nbrCount m i j = nbrCount m j i := by
  have hm0 : 0 < m := by omega
  have hri : (i : ℕ) / m < m := (Nat.div_lt_iff_lt_mul hm0).mpr i.2
  have hci : (i : ℕ) % m < m := Nat.mod_lt _ hm0
  have hrj : (j : ℕ) / m < m := (Nat.div_lt_iff_lt_mul hm0).mpr j.2
  have hcj : (j : ℕ) % m < m := Nat.mod_lt _ hm0
  unfold nbrCount
  simp only [show ((j : ℕ) / m = ((i : ℕ) / m + 1) % m ∧ (j : ℕ) % m = (i : ℕ) % m) ↔
        ((i : ℕ) / m = ((j : ℕ) / m + (m - 1)) % m ∧ (i : ℕ) % m = (j : ℕ) % m) from
      and_congr (succ_pred_mod_symm m _ _ hm hri hrj) eq_comm,
    show ((j : ℕ) / m = ((i : ℕ) / m + (m - 1)) % m ∧ (j : ℕ) % m = (i : ℕ) % m) ↔
        ((i : ℕ) / m = ((j : ℕ) / m + 1) % m ∧ (i : ℕ) % m = (j : ℕ) % m) from
      and_congr (succ_pred_mod_symm m _ _ hm hrj hri).symm eq_comm,
    show ((j : ℕ) / m = (i : ℕ) / m ∧ (j : ℕ) % m = ((i : ℕ) % m + 1) % m) ↔
        ((i : ℕ) / m = (j : ℕ) / m ∧ (i : ℕ) % m = ((j : ℕ) % m + (m - 1)) % m) from
      and_congr eq_comm (succ_pred_mod_symm m _ _ hm hci hcj),
    show ((j : ℕ) / m = (i : ℕ) / m ∧ (j : ℕ) % m = ((i : ℕ) % m + (m - 1)) % m) ↔
        ((i : ℕ) / m = (j : ℕ) / m ∧ (i : ℕ) % m = ((j : ℕ) % m + 1) % m) from
      and_congr eq_comm (succ_pred_mod_symm m _ _ hm hcj hci).symm]
  ring

/-- The assembled Laplacian is symmetric. -/
lemma lapA_symm (m : ℕ) (hm : 2 ≤ m) (i j : Fin (m * m)) :
    lapA m i j = lapA m j i := by
  rw [lapA_apply m hm i j, lapA_apply m hm j i, nbrCount_symm m hm i j,
    show (if i = j then (-4 : ℚ) else 0) = (if j = i then (-4 : ℚ) else 0) from
      if_congr eq_comm rfl rfl]

lemma succ_pred_mod_ne (m x : ℕ) (hm : 3 ≤ m) (hx : x < m) :
    (x + 1) % m ≠ (x + (m - 1)) % m := by
  rw [mod_succ_eval m x hx, mod_pred_eval m x hx (by omega)]
  split_ifs <;> omega

lemma succ_mod_ne_self (m x : ℕ) (hm : 2 ≤ m) (hx : x < m) : (x + 1) % m ≠ x := by
  rw [mod_succ_eval m x hx]; split_ifs <;> omega

lemma pred_mod_ne_self (m x : ℕ) (hm : 2 ≤ m) (hx : x < m) : (x + (m - 1)) % m ≠ x := by
  rw [mod_pred_eval m x hx hm]; split_ifs <;> omega

/-- For `m ≥ 3` the four neighbour directions of a cell are pairwise distinct, so the
indicator of the neighbour relation splits as a sum of four direction indicators. -/
lemma isNeighbor_indicator {M : Type} [AddCommMonoid M] (m : ℕ) (hm : 3 ≤ m)
    (i j : Fin (m * m)) (v : M) :
    (if isNeighbor m i j then v else 0) =
      (if (j : ℕ) / m = ((i : ℕ) / m + 1) % m ∧ (j : ℕ) % m = (i : ℕ) % m then v else 0) +
      (if (j : ℕ) / m = ((i : ℕ) / m + (m - 1)) % m ∧ (j : ℕ) % m = (i : ℕ) % m then v else 0) +
      (if (j : ℕ) / m = (i : ℕ) / m ∧ (j : ℕ) % m = ((i : ℕ) % m + 1) % m then v else 0) +
      (if (j : ℕ) / m = (i : ℕ) / m ∧ (j : ℕ) % m = ((i : ℕ) % m + (m - 1)) % m then v else 0) := by
  have hm0 : 0 < m := by omega
  have hm2 : 2 ≤ m := by omega
  have hri : (i : ℕ) / m < m := (Nat.div_lt_iff_lt_mul hm0).mpr i.2
  have hci : (i : ℕ) % m < m := Nat.mod_lt _ hm0
  by_cases hn : isNeighbor m i j
  · rw [if_pos hn]
    rcases hn with h1 | h2 | h3 | h4
    · rw [if_pos h1,
        if_neg (fun h => succ_pred_mod_ne m _ hm hri (h1.1.symm.trans h.1)),
        if_neg (fun h => succ_mod_ne_self m _ hm2 hri (h1.1.symm.trans h.1)),
        if_neg (fun h => succ_mod_ne_self m _ hm2 hri (h1.1.symm.trans h.1)),
        add_zero, add_zero, add_zero]
    · rw [if_neg (fun h => succ_pred_mod_ne m _ hm hri (h.1.symm.trans h2.1)), if_pos h2,
        if_neg (fun h => pred_mod_ne_self m _ hm2 hri (h2.1.symm.trans h.1)),
        if_neg (fun h => pred_mod_ne_self m _ hm2 hri (h2.1.symm.trans h.1)),
        zero_add, add_zero, add_zero]
    · rw [if_neg (fun h => succ_mod_ne_self m _ hm2 hri (h.1.symm.trans h3.1)),
        if_neg (fun h => pred_mod_ne_self m _ hm2 hri (h.1.symm.trans h3.1)), if_pos h3,
        if_neg (fun h => succ_pred_mod_ne m _ hm hci (h3.2.symm.trans h.2)),
        zero_add, zero_add, add_zero]
    · rw [if_neg (fun h => succ_mod_ne_self m _ hm2 hri (h.1.symm.trans h4.1)),
        if_neg (fun h => pred_mod_ne_self m _ hm2 hri (h.1.symm.trans h4.1)),
        if_neg (fun h => succ_pred_mod_ne m _ hm hci (h.2.symm.trans h4.2)), if_pos h4,
        zero_add, zero_add, zero_add]
  · have hn2 := hn
    unfold isNeighbor at hn2
    push_neg at hn2
    obtain ⟨g1, g2, g3, g4⟩ := hn2
    rw [if_neg hn, if_neg (fun h => g1 h.1 h.2), if_neg (fun h => g2 h.1 h.2),
      if_neg (fun h => g3 h.1 h.2), if_neg (fun h => g4 h.1 h.2),
      add_zero, add_zero, add_zero]

/-- For `m ≥ 3` the neighbour count is the indicator of the neighbour relation. -/
lemma nbrCount_cases (m : ℕ) (hm : 3 ≤ m) (i j : Fin (m * m)) :
    nbrCount m i j = if isNeighbor m i j then 1 else 0 := by
  rw [isNeighbor_indicator m hm i j (1 : ℚ)]
  rfl

/-- Five-point-stencil form of the entries for `m ≥ 3`. -/
lemma lapA_stencil (m : ℕ) (hm : 3 ≤ m) (i j : Fin (m * m)) :
    lapA m i j =
      (if i = j then (-4 : ℚ) else if isNeighbor m i j then 1 else 0) / (delta_x m) ^ 2 := by
  rw [lapA_apply m (by omega) i j, nbrCount_cases m hm i j]
  by_cases h : i = j
  · subst h
    rw [if_pos rfl, if_pos rfl, if_neg (isNeighbor_self_false m (by omega) i), add_zero]
  · rw [if_neg h, if_neg h, zero_add]

lemma sum_isNeighbor_ind (m : ℕ) (hm : 3 ≤ m) (i : Fin (m * m)) :
    ∑ j, (if isNeighbor m i j then (1 : ℕ) else 0) = 4 := by
  have hm0 : 0 < m := by omega
  have hm2 : 2 ≤ m := by omega
  have hri : (i : ℕ) / m < m := (Nat.div_lt_iff_lt_mul hm0).mpr i.2
  have hci : (i : ℕ) % m < m := Nat.mod_lt _ hm0
  rw [Finset.sum_congr rfl (fun j _ => isNeighbor_indicator m hm i j (1 : ℕ))]
  rw [Finset.sum_add_distrib, Finset.sum_add_distrib, Finset.sum_add_distrib]
  rw [sum_pair_ind m _ _ (Nat.mod_lt _ hm0) hci 1, sum_pair_ind m _ _ (Nat.mod_lt _ hm0) hci 1,
    sum_pair_ind m _ _ hri (Nat.mod_lt _ hm0) 1, sum_pair_ind m _ _ hri (Nat.mod_lt _ hm0) 1]

/-- Exactly five non-zero entries in each row for `m ≥ 3`. -/
lemma card_nonzero_row (m : ℕ) (hm : 3 ≤ m) (i : Fin (m * m)) :
    ((univ : Finset (Fin (m * m))).filter (fun j => lapA m i j ≠ 0)).card = 5 := by
  have hdx := delta_x_sq_pos m
  have hne : ∀ j, (lapA m i j ≠ 0) ↔ (i = j ∨ isNeighbor m i j) := by
    intro j
    rw [lapA_stencil m hm i j]
    constructor
    · intro h
      by_contra hc
      push_neg at hc
      rw [if_neg hc.1, if_neg hc.2, zero_div] at h
      exact h rfl
    · intro h
      by_cases h1 : i = j
      · rw [if_pos h1]
        exact div_ne_zero (by norm_num) (ne_of_gt hdx)
      · rcases h with h | h
        · exact absurd h h1
        · rw [if_neg h1, if_pos h]
          exact div_ne_zero one_ne_zero (ne_of_gt hdx)
  rw [Finset.card_filter]
  rw [Finset.sum_congr rfl (fun j _ => if_congr (hne j) rfl rfl)]
  have split : ∀ j, (if i = j ∨ isNeighbor m i j then (1 : ℕ) else 0) =
      (if i = j then 1 else 0) + (if isNeighbor m i j then 1 else 0) := by
    intro j
    by_cases h1 : i = j
    · subst h1
      rw [if_pos (Or.inl rfl), if_pos rfl, if_neg (isNeighbor_self_false m (by omega) i)]
    · by_cases h2 : isNeighbor m i j <;> simp [h1, h2]
  rw [Finset.sum_congr rfl (fun j _ => split j), Finset.sum_add_distrib,
    Finset.sum_ite_eq, if_pos (Finset.mem_univ i), sum_isNeighbor_ind m hm i]

/-- Exactly four off-diagonal entries of value `1 / Δx²` in each row for `m ≥ 3`. -/
lemma card_offdiag_row (m : ℕ) (hm : 3 ≤ m) (i : Fin (m * m)) :
    ((univ : Finset (Fin (m * m))).filter
      (fun j => j ≠ i ∧ lapA m i j = 1 / (delta_x m) ^ 2)).card = 4 := by
  have hdx := delta_x_sq_pos m
  have hiff : ∀ j, (j ≠ i ∧ lapA m i j = 1 / (delta_x m) ^ 2) ↔ isNeighbor m i j := by
    intro j
    constructor
    · rintro ⟨hne, hval⟩
      rw [lapA_stencil m hm i j, if_neg (fun hh => hne hh.symm)] at hval
      by_contra hnb
      rw [if_neg hnb, zero_div] at hval
      exact div_ne_zero one_ne_zero (ne_of_gt hdx) hval.symm
    · intro h
      have hne : j ≠ i := by
        rintro rfl
        exact isNeighbor_self_false m (by omega) j h
      refine ⟨hne, ?_⟩
      rw [lapA_stencil m hm i j, if_neg (fun hh => hne hh.symm), if_pos h]
  rw [Finset.card_filter]
  rw [Finset.sum_congr rfl (fun j _ => if_congr (hiff j) rfl rfl)]
  exact sum_isNeighbor_ind m hm i

/-! ## Linear-algebra consequences -/

lemma lapA_mulVec_const (m : ℕ) (hm : 2 ≤ m) (k : ℚ) :
    lapA m *ᵥ (fun _ => k) = 0 := by
  funext i
  show ∑ j, lapA m i j * k = 0
  rw [← Finset.sum_mul, lapA_row_sum m hm i, zero_mul]

lemma lapA_col_sum (m : ℕ) (hm : 2 ≤ m) (j : Fin (m * m)) :
    ∑ i, lapA m i j = 0 := by
  calc ∑ i, lapA m i j = ∑ i, lapA m j i :=
        Finset.sum_congr rfl (fun i _ => lapA_symm m hm i j)
  _ = 0 := lapA_row_sum m hm j

/-- The implicit-step matrix `I - c*A` is injective for `c ≥ 0`: strict diagonal
dominance, via a maximum-entry argument. -/
lemma one_sub_smul_lapA_ker (m : ℕ) (hm : 2 ≤ m) (c : ℚ) (hc : 0 ≤ c)
    (x : Fin (m * m) → ℚ) (hx : (1 - c • lapA m) *ᵥ x = 0) : x = 0 := by
  have hmm : 0 < m * m := Nat.mul_pos (by omega) (by omega)
  obtain ⟨i0, -, hmax⟩ := Finset.exists_max_image (univ : Finset (Fin (m * m)))
    (fun k => |x k|) ⟨⟨0, hmm⟩, Finset.mem_univ _⟩
  have hdx := delta_x_sq_pos m
  have heq0 : x i0 - c * ∑ j, lapA m i0 j * x j = 0 := by
    have h0 := congrFun hx i0
    rw [Matrix.sub_mulVec, Matrix.smul_mulVec_assoc, Matrix.one_mulVec] at h0
    simpa [Matrix.mulVec, dotProduct, Pi.sub_apply, Pi.smul_apply, smul_eq_mul] using h0
  have hsplit : ∑ j, lapA m i0 j * x j =
      lapA m i0 i0 * x i0 + ∑ j ∈ univ.erase i0, lapA m i0 j * x j :=
    (Finset.add_sum_erase univ _ (Finset.mem_univ i0)).symm
  have hoffsum : ∑ j ∈ univ.erase i0, lapA m i0 j = 4 / (delta_x m) ^ 2 := by
    have h1 := lapA_row_sum m hm i0
    have h2 : lapA m i0 i0 + ∑ j ∈ univ.erase i0, lapA m i0 j = ∑ j, lapA m i0 j :=
      Finset.add_sum_erase univ (fun j => lapA m i0 j) (Finset.mem_univ i0)
    rw [h1, lapA_diag m hm i0] at h2
    linear_combination h2
  have hSabs : |∑ j ∈ univ.erase i0, lapA m i0 j * x j| ≤ (4 / (delta_x m) ^ 2) * |x i0| := by
    calc |∑ j ∈ univ.erase i0, lapA m i0 j * x j|
        ≤ ∑ j ∈ univ.erase i0, |lapA m i0 j * x j| := Finset.abs_sum_le_sum_abs _ _
    _ ≤ ∑ j ∈ univ.erase i0, lapA m i0 j * |x i0| := by
        refine Finset.sum_le_sum (fun j hj => ?_)
        have hne : i0 ≠ j := (Finset.ne_of_mem_erase hj).symm
        have hnn := lapA_offdiag_nonneg m hm i0 j hne
        rw [abs_mul, abs_of_nonneg hnn]
        exact mul_le_mul_of_nonneg_left (hmax j (Finset.mem_univ j)) hnn
    _ = (4 / (delta_x m) ^ 2) * |x i0| := by rw [← Finset.sum_mul, hoffsum]
  have hq : 0 ≤ c * (4 / (delta_x m) ^ 2) := by positivity
  have hxi0 : x i0 * (1 + c * (4 / (delta_x m) ^ 2)) =
      c * ∑ j ∈ univ.erase i0, lapA m i0 j * x j := by
    rw [hsplit, lapA_diag m hm i0] at heq0
    linear_combination heq0
  have habs : |x i0| * (1 + c * (4 / (delta_x m) ^ 2)) ≤
      c * ((4 / (delta_x m) ^ 2) * |x i0|) := by
    have hpos : (0 : ℚ) < 1 + c * (4 / (delta_x m) ^ 2) := by linarith
    have h1 : |x i0 * (1 + c * (4 / (delta_x m) ^ 2))| =
        |x i0| * (1 + c * (4 / (delta_x m) ^ 2)) := by
      rw [abs_mul, abs_of_pos hpos]
    calc |x i0| * (1 + c * (4 / (delta_x m) ^ 2))
        = |c * ∑ j ∈ univ.erase i0, lapA m i0 j * x j| := by rw [← h1, hxi0]
    _ = c * |∑ j ∈ univ.erase i0, lapA m i0 j * x j| := by rw [abs_mul, abs_of_nonneg hc]
    _ ≤ c * ((4 / (delta_x m) ^ 2) * |x i0|) := mul_le_mul_of_nonneg_left hSabs hc
  have hzero : |x i0| ≤ 0 := by linarith [habs]
  funext k
  have h1 : |x k| ≤ 0 := le_trans (hmax k (Finset.mem_univ k)) hzero
  have h2 : |x k| = 0 := le_antisymm h1 (abs_nonneg _)
  exact abs_eq_zero.mp h2

/-! ## Reaction terms -/

/-- `f_reaction(U, V, sigma, tau_1, tau_2, alpha, beta, gamma)` from the source:
`alpha * U * (1.0 - tau_1 * V**2) + V * (1.0 - tau_2 * U)`. -/
def f_reaction (U V sigma tau_1 tau_2 alpha beta gamma : ℚ) : ℚ :=
  alpha * U * (1 - tau_1 * V ^ 2) + V * (1 - tau_2 * U)

/-- `g_reaction(U, V, sigma, tau_1, tau_2, alpha, beta, gamma)` from the source:
`beta * V * (1.0 + alpha * tau_1 / beta * U * V) + U * (gamma + tau_2 * V)`.
The scalar subexpression `alpha * tau_1 / beta` raises `ZeroDivisionError` in Python
when `beta = 0`; that failure is modelled as `none`. -/
def g_reaction (U V sigma tau_1 tau_2 alpha beta gamma : ℚ) : Option ℚ :=
  if beta = 0 then none
  else some (beta * V * (1 + alpha * tau_1 / beta * U * V) + U * (gamma + tau_2 * V))

/-! ## Steppers -/

/-- Elementwise evaluation of an `Option`-valued reaction callback over a state
vector; `none` as soon as any evaluation fails (a raised exception aborts the whole
vectorised expression). -/
def vecOption {n : ℕ} (v : Fin n → Option ℚ) : Option (Fin n → ℚ) :=
  if h : ∀ i, (v i).isSome then some (fun i => (v i).get (h i)) else none

lemma vecOption_some {n : ℕ} (h : Fin n → ℚ) (v : Fin n → Option ℚ)
    (hv : ∀ i, v i = some (h i)) : vecOption v = some h := by
  unfold vecOption
  rw [dif_pos (fun i => by rw [hv i]; rfl)]
  congr 1
  funext i
  simp [hv i]

lemma vecOption_none {n : ℕ} (v : Fin n → Option ℚ) (i : Fin n) (hi : v i = none) :
    vecOption v = none := by
  unfold vecOption
  rw [dif_neg]
  intro hall
  have h := hall i
  rw [hi] at h
  exact absurd h (by simp)

/-- `forward_euler_step(U, V, delta_t, A, sigma, f, g, D1=0.5, D2=1.0)` from the source:
`U_new = U + delta_t * (sigma * D1 * A * U + f(U, V))` and
`V_new = V + delta_t * (sigma * D2 * A * V + g(U, V))`; an exception raised by a
reaction callback propagates. -/
def forward_euler_step {n : ℕ} (U V : Fin n → ℚ) (delta_t : ℚ)
    (A : Matrix (Fin n) (Fin n) ℚ) (sigma : ℚ) (f g : ℚ → ℚ → Option ℚ)
    (D1 D2 : ℚ) : Option ((Fin n → ℚ) × (Fin n → ℚ)) :=
  (vecOption (fun i => f (U i) (V i))).bind fun fUV =>
  (vecOption (fun i => g (U i) (V i))).bind fun gUV =>
  some (U + delta_t • ((sigma * D1) • (A *ᵥ U) + fUV),
        V + delta_t • ((sigma * D2) • (A *ᵥ V) + gUV))

/-- The linear system matrix of the implicit diffusion sub-step:
`sparse.eye(A.shape[0]) - delta_t * sigma * D * A`. -/
def diffusion_system_matrix {n : ℕ} (A : Matrix (Fin n) (Fin n) ℚ)
    (delta_t sigma D : ℚ) : Matrix (Fin n) (Fin n) ℚ :=
  1 - (delta_t * sigma * D) • A

/-- `backward_euler_diffusion_step(U, V, A, delta_t, sigma, D_1, D_2)` calls
`linalg.spsolve` twice; since `spsolve` returns a solution of the linear system, the
step is modelled as the graph relation of the two solves. -/
def is_backward_euler_diffusion_step {n : ℕ} (U V : Fin n → ℚ)
    (A : Matrix (Fin n) (Fin n) ℚ) (delta_t sigma D_1 D_2 : ℚ)
    (Us Vs : Fin n → ℚ) : Prop :=
  diffusion_system_matrix A delta_t sigma D_1 *ᵥ Us = U ∧
  diffusion_system_matrix A delta_t sigma D_2 *ᵥ Vs = V

/-- One iteration of the `imex_solver` loop body:
`U, V = backward_euler_diffusion_step(U, V, A, delta_t, sigma, D_1, D_2)` followed by
`U, V = forward_euler_step(U, V, delta_t, A, sigma, f, g)`.  The second call passes no
diffusion coefficients, so `forward_euler_step` uses its defaults `D1=0.5`, `D2=1.0`. -/
def imex_body {n : ℕ} (A : Matrix (Fin n) (Fin n) ℚ) (delta_t sigma D_1 D_2 : ℚ)
    (f g : ℚ → ℚ → Option ℚ) (U V U1 V1 : Fin n → ℚ) : Prop :=
  ∃ Us Vs, is_backward_euler_diffusion_step U V A delta_t sigma D_1 D_2 Us Vs ∧
    forward_euler_step Us Vs delta_t A sigma f g (1 / 2) 1 = some (U1, V1)

/-- Parameters of the reference `imex_solver` call:
`sigma=0.0021, tau_1=3.5, tau_2=0, alpha=0.899, beta=-0.91, gamma=-0.899`. -/
def imex_sigma : ℚ := 21 / 10000

def imex_tau_1 : ℚ := 7 / 2

def imex_tau_2 : ℚ := 0

def imex_alpha : ℚ := 899 / 1000

def imex_beta : ℚ := -91 / 100

def imex_gamma : ℚ := -899 / 1000

/-- `imex_solver` grid spacing `delta_x = 2.0 / m` with `m = 150`. -/
def imex_delta_x : ℚ := 2 / 150

/-- `imex_solver` step size `delta_t = delta_x / (10.0 * sigma)`. -/
def imex_delta_t : ℚ := imex_delta_x / (10 * imex_sigma)

/-- The solver alias `f = lambda U, V: f_reaction(U, V, sigma, ...)`. -/
def imex_f (u v : ℚ) : Option ℚ :=
  some (f_reaction u v imex_sigma imex_tau_1 imex_tau_2 imex_alpha imex_beta imex_gamma)

/-- The solver alias `g = lambda U, V: g_reaction(U, V, sigma, ...)`. -/
def imex_g (u v : ℚ) : Option ℚ :=
  g_reaction u v imex_sigma imex_tau_1 imex_tau_2 imex_alpha imex_beta imex_gamma

/-- One iteration of the reference `imex_solver` run: `m = 150`,
`A = laplacian_discretization(150)`, `D_1 = 0.5`, `D_2 = 1.0`. -/
def imex_solver_body (U V U1 V1 : Fin (150 * 150) → ℚ) : Prop :=
  imex_body (lapA 150) imex_delta_t imex_sigma (1 / 2) 1 imex_f imex_g U V U1 V1

/-- Iterate an `Option`-valued step; a failure (raised exception) aborts the run. -/
def stepsN {S : Type} (step : S → Option S) : ℕ → S → Option S
  | 0, s => some s
  | n + 1, s => (step s).bind (stepsN step n)

/-- Scenario-1 step size: `delta_x**2 / (4 * sigma)` with `sigma = 1` on the `m = 4`
grid of the operator builder. -/
def scenario1_delta_t : ℚ := (delta_x 4) ^ 2 / 4

/-- The scenario-1 stepper: `forward_euler_step` on `laplacian_discretization(4)` with
`sigma = 1`, `tau_1 = tau_2 = alpha = gamma = 0`, `D1 = D2 = 1`, and reaction
parameter `beta`; the reaction callbacks are the aliased reaction functions. -/
def scenario1_step (beta : ℚ) (s : (Fin (4 * 4) → ℚ) × (Fin (4 * 4) → ℚ)) :
    Option ((Fin (4 * 4) → ℚ) × (Fin (4 * 4) → ℚ)) :=
  forward_euler_step s.1 s.2 scenario1_delta_t (lapA 4) 1
    (fun u v => some (f_reaction u v 1 0 0 0 beta 0))
    (fun u v => g_reaction u v 1 0 0 0 beta 0) 1 1

lemma lap_some_eq (m : ℕ) (hm : 2 ≤ m) (A : Matrix (Fin (m * m)) (Fin (m * m)) ℚ)
    (hA : laplacian_discretization m = some A) : A = lapA m := by
  rw [lap_eq_some m hm] at hA
  exact (Option.some.inj hA).symm

/-! ## Claim theorems -/

/-- C8 counterexample: with every parameter equal to `0` (so in particular
`beta = 0`), evaluating `g_reaction` at `U = V = 0` raises `ZeroDivisionError`
(modelled `none`) instead of yielding `0`. -/
theorem g_reaction_beta_zero_errors :
    g_reaction 0 0 0 0 0 0 0 0 = none ∧ (none : Option ℚ) ≠ some 0 :=
  ⟨rfl, by simp⟩

/-- C8 (amended): at `U = V = 0` the reaction terms vanish — unconditionally for
`f_reaction`, and for every `beta ≠ 0` for `g_reaction` (whose factored form divides
by `beta`). -/
theorem reaction_zero_fixed_point (sigma tau_1 tau_2 alpha beta gamma : ℚ) :
    f_reaction 0 0 sigma tau_1 tau_2 alpha beta gamma = 0 ∧
    (beta ≠ 0 → g_reaction 0 0 sigma tau_1 tau_2 alpha beta gamma = some 0) := by
  constructor
  · unfold f_reaction; ring
  · intro hb
    unfold g_reaction
    rw [if_neg hb]
    congr 1
    ring

theorem reaction_zero_fixed_point_witness :
    (1 : ℚ) ≠ 0 ∧ g_reaction 0 0 1 1 1 1 1 1 = some 0 :=
  ⟨one_ne_zero, (reaction_zero_fixed_point 1 1 1 1 1 1).2 one_ne_zero⟩

/-- C9: the operator builder raises for every grid size `m < 2` (a `ValueError` from
the duplicate `spdiags` offsets `m - m**2 = m**2 - m`), and the minimum valid size
`m = 2` is accepted and produces a matrix. -/
theorem laplacian_rejects_small_grids :
    (∀ m : ℕ, m < 2 → laplacian_discretization m = none) ∧
    laplacian_discretization 2 = some (lapA 2) :=
  ⟨fun m hm => lap_none m hm, lap_eq_some 2 (le_refl 2)⟩

theorem laplacian_rejects_small_grids_witness :
    (0 : ℕ) < 2 ∧ (1 : ℕ) < 2 ∧ laplacian_discretization 0 = none ∧
      laplacian_discretization 1 = none :=
  ⟨by norm_num, by norm_num, laplacian_rejects_small_grids.1 0 (by norm_num),
    laplacian_rejects_small_grids.1 1 (by norm_num)⟩

/-- C3: every row of the assembled Laplacian sums to zero, and every constant field
is in its kernel. -/
theorem laplacian_row_sums_and_const_kernel (m : ℕ) (hm : 2 ≤ m)
    (A : Matrix (Fin (m * m)) (Fin (m * m)) ℚ)
    (hA : laplacian_discretization m = some A) :
    (∀ i, ∑ j, A i j = 0) ∧ (∀ k : ℚ, A *ᵥ (fun _ => k) = 0) := by
  obtain rfl := lap_some_eq m hm A hA
  exact ⟨lapA_row_sum m hm, lapA_mulVec_const m hm⟩

theorem laplacian_row_sums_and_const_kernel_witness :
    2 ≤ 2 ∧ laplacian_discretization 2 = some (lapA 2) ∧
      ((∀ i, ∑ j, lapA 2 i j = 0) ∧ (∀ k : ℚ, lapA 2 *ᵥ (fun _ => k) = 0)) :=
  ⟨le_refl 2, lap_eq_some 2 (le_refl 2),
    laplacian_row_sums_and_const_kernel 2 (le_refl 2) (lapA 2) (lap_eq_some 2 (le_refl 2))⟩

/-- C4: the assembled Laplacian is symmetric for every `m ≥ 2`. -/
theorem laplacian_symmetric (m : ℕ) (hm : 2 ≤ m)
    (A : Matrix (Fin (m * m)) (Fin (m * m)) ℚ)
    (hA : laplacian_discretization m = some A) :
    ∀ i j, A i j = A j i := by
  obtain rfl := lap_some_eq m hm A hA
  exact lapA_symm m hm

theorem laplacian_symmetric_witness :
    2 ≤ 2 ∧ laplacian_discretization 2 = some (lapA 2) ∧
      (∀ i j, lapA 2 i j = lapA 2 j i) :=
  ⟨le_refl 2, lap_eq_some 2 (le_refl 2),
    laplacian_symmetric 2 (le_refl 2) (lapA 2) (lap_eq_some 2 (le_refl 2))⟩

/-- C6: for positive `Δt`, `σ`, `D`, the system `(I - Δt·σ·D·A) x = b` solved by
`backward_euler_diffusion_step` has, for every constant right-hand side `b`, the
unique solution `x = b`. -/
theorem implicit_diffusion_constant_fixed_point (m : ℕ) (hm : 2 ≤ m)
    (A : Matrix (Fin (m * m)) (Fin (m * m)) ℚ)
    (hA : laplacian_discretization m = some A)
    (delta_t sigma D k : ℚ) (ht : 0 < delta_t) (hs : 0 < sigma) (hD : 0 < D) :
    diffusion_system_matrix A delta_t sigma D *ᵥ (fun _ => k) = (fun _ => k) ∧
    (∀ x, diffusion_system_matrix A delta_t sigma D *ᵥ x = (fun _ => k) →
      x = fun _ => k) := by
  obtain rfl := lap_some_eq m hm A hA
  have hc : 0 ≤ delta_t * sigma * D := by positivity
  have hconst : diffusion_system_matrix (lapA m) delta_t sigma D *ᵥ (fun _ => k) =
      (fun _ => k) := by
    unfold diffusion_system_matrix
    rw [Matrix.sub_mulVec, Matrix.smul_mulVec_assoc, Matrix.one_mulVec,
      lapA_mulVec_const m hm k, smul_zero, sub_zero]
  refine ⟨hconst, fun x hx => ?_⟩
  have hker : diffusion_system_matrix (lapA m) delta_t sigma D *ᵥ (x - fun _ => k) = 0 := by
    rw [Matrix.mulVec_sub, hx, hconst, sub_self]
  have hz : x - (fun _ => k) = 0 :=
    one_sub_smul_lapA_ker m hm (delta_t * sigma * D) hc (x - fun _ => k) hker
  exact sub_eq_zero.mp hz

theorem implicit_diffusion_constant_fixed_point_witness :
    2 ≤ 2 ∧ (0 : ℚ) < 1 ∧
      (diffusion_system_matrix (lapA 2) 1 1 1 *ᵥ (fun _ => (1 : ℚ)) = (fun _ => 1) ∧
       (∀ x, diffusion_system_matrix (lapA 2) 1 1 1 *ᵥ x = (fun _ => (1 : ℚ)) →
         x = fun _ => 1)) :=
  ⟨le_refl 2, one_pos,
    implicit_diffusion_constant_fixed_point 2 (le_refl 2) (lapA 2)
      (lap_eq_some 2 (le_refl 2)) 1 1 1 1 one_pos one_pos one_pos⟩

/-! ## The minimal grid `m = 2` -/

lemma nbrCount2_val (i j : Fin (2 * 2)) :
    nbrCount 2 i j = !![(0 : ℚ), 2, 2, 0; 2, 0, 0, 2; 2, 0, 0, 2; 0, 2, 2, 0] i j := by
  fin_cases i <;> fin_cases j <;>
    norm_num [nbrCount, Matrix.cons_val_zero, Matrix.cons_val_one, Matrix.head_cons,
      Matrix.cons_val', Matrix.empty_val', Matrix.cons_val_fin_one, Matrix.head_fin_const]

lemma lapA2_val (i j : Fin (2 * 2)) :
    lapA 2 i j =
      !![(-4 : ℚ) / (delta_x 2) ^ 2, 2 / (delta_x 2) ^ 2, 2 / (delta_x 2) ^ 2, 0;
         2 / (delta_x 2) ^ 2, -4 / (delta_x 2) ^ 2, 0, 2 / (delta_x 2) ^ 2;
         2 / (delta_x 2) ^ 2, 0, -4 / (delta_x 2) ^ 2, 2 / (delta_x 2) ^ 2;
         0, 2 / (delta_x 2) ^ 2, 2 / (delta_x 2) ^ 2, -4 / (delta_x 2) ^ 2] i j := by
  rw [lapA_apply 2 (le_refl 2) i j, nbrCount2_val i j]
  fin_cases i <;> fin_cases j <;>
    norm_num [Matrix.cons_val_zero, Matrix.cons_val_one, Matrix.head_cons,
      Matrix.cons_val', Matrix.empty_val', Matrix.cons_val_fin_one, Matrix.head_fin_const,
      Fin.mk.injEq, Fin.ext_iff, Fin.val_zero, Fin.val_one, delta_x]

lemma lapA2_card3 (i : Fin (2 * 2)) :
    ((univ : Finset (Fin (2 * 2))).filter (fun j => lapA 2 i j ≠ 0)).card = 3 := by
  rw [Finset.card_filter]
  fin_cases i <;>
    · rw [Fin.sum_univ_four]
      norm_num [lapA2_val, Matrix.cons_val_zero, Matrix.cons_val_one, Matrix.head_cons,
        Matrix.cons_val', Matrix.empty_val', Matrix.cons_val_fin_one, Matrix.head_fin_const,
        delta_x]

lemma lapA2_card2 (i : Fin (2 * 2)) :
    ((univ : Finset (Fin (2 * 2))).filter
      (fun j => j ≠ i ∧ lapA 2 i j = 2 / (delta_x 2) ^ 2)).card = 2 := by
  rw [Finset.card_filter]
  fin_cases i <;>
    · rw [Fin.sum_univ_four]
      norm_num [lapA2_val, Matrix.cons_val_zero, Matrix.cons_val_one, Matrix.head_cons,
        Matrix.cons_val', Matrix.empty_val', Matrix.cons_val_fin_one, Matrix.head_fin_const,
        delta_x, Fin.ext_iff] <;> decide

lemma lapA2_tri (i j : Fin (2 * 2)) :
    i = j ∨ lapA 2 i j = 0 ∨ lapA 2 i j = 2 / (delta_x 2) ^ 2 := by
  fin_cases i <;> fin_cases j <;>
    simp [lapA2_val, Matrix.cons_val_zero, Matrix.cons_val_one, Matrix.head_cons,
      Matrix.cons_val', Matrix.empty_val', Matrix.cons_val_fin_one, Matrix.head_fin_const]

/-- C1 (amended): for every `m ≥ 3` the entries of `laplacian_discretization(m)` are
exactly `-4/Δx²` on the diagonal, `1/Δx²` at the four periodic-grid neighbours
`(r ± 1 mod m, c)` and `(r, c ± 1 mod m)`, and `0` elsewhere, with `Δx = 2/(m+1)`.
(At `m = 2` opposite neighbour couplings land on the same entry and the claim fails;
see the counterexample.) -/
theorem laplacian_entries_stencil (m : ℕ) (hm : 3 ≤ m)
    (A : Matrix (Fin (m * m)) (Fin (m * m)) ℚ)
    (hA : laplacian_discretization m = some A) (i j : Fin (m * m)) :
    A i j = (if i = j then (-4 : ℚ) else if isNeighbor m i j then 1 else 0) /
      (delta_x m) ^ 2 := by
  obtain rfl := lap_some_eq m (by omega) A hA
  exact lapA_stencil m hm i j

theorem laplacian_entries_stencil_witness :
    3 ≤ 3 ∧ laplacian_discretization 3 = some (lapA 3) ∧
      lapA 3 ⟨0, by norm_num⟩ ⟨0, by norm_num⟩ =
        (if (⟨0, by norm_num⟩ : Fin (3 * 3)) = ⟨0, by norm_num⟩ then (-4 : ℚ)
         else if isNeighbor 3 ⟨0, by norm_num⟩ ⟨0, by norm_num⟩ then 1 else 0) /
          (delta_x 3) ^ 2 :=
  ⟨le_refl 3, lap_eq_some 3 (by norm_num),
    laplacian_entries_stencil 3 (le_refl 3) (lapA 3) (lap_eq_some 3 (by norm_num)) _ _⟩

/-- C1 counterexample: at the claimed minimum `m = 2`, the entry `(0, 1)` — and `j = 1`
is one of the periodic-grid neighbours of `i = 0` — equals `2/Δx²` instead of the
claimed `1/Δx²`. -/
theorem laplacian_entries_m2_counterexample :
    laplacian_discretization 2 = some (lapA 2) ∧
    isNeighbor 2 ⟨0, by norm_num⟩ ⟨1, by norm_num⟩ ∧
    lapA 2 ⟨0, by norm_num⟩ ⟨1, by norm_num⟩ = 2 / (delta_x 2) ^ 2 ∧
    (2 / (delta_x 2) ^ 2 : ℚ) ≠ 1 / (delta_x 2) ^ 2 := by
  refine ⟨lap_eq_some 2 (le_refl 2), by decide, ?_, by norm_num [delta_x]⟩
  rw [lapA2_val]
  norm_num [Matrix.cons_val_zero, Matrix.cons_val_one, Matrix.head_cons,
    Matrix.cons_val', Matrix.empty_val', Matrix.cons_val_fin_one, Matrix.head_fin_const]

/-- C5 (amended): for every `m ≥ 3`, each row of `laplacian_discretization(m)` has
exactly five non-zero entries: the diagonal `-4/Δx²` and four off-diagonal entries of
value `1/Δx²`.  (At `m = 2` each row has only three; see the counterexample.) -/
theorem laplacian_five_entries_per_row (m : ℕ) (hm : 3 ≤ m)
    (A : Matrix (Fin (m * m)) (Fin (m * m)) ℚ)
    (hA : laplacian_discretization m = some A) :
    ∀ i, ((univ : Finset (Fin (m * m))).filter (fun j => A i j ≠ 0)).card = 5 ∧
      A i i = -4 / (delta_x m) ^ 2 ∧
      ((univ : Finset (Fin (m * m))).filter
        (fun j => j ≠ i ∧ A i j = 1 / (delta_x m) ^ 2)).card = 4 := by
  obtain rfl := lap_some_eq m (by omega) A hA
  exact fun i =>
    ⟨card_nonzero_row m hm i, lapA_diag m (by omega) i, card_offdiag_row m hm i⟩

theorem laplacian_five_entries_per_row_witness :
    3 ≤ 3 ∧ laplacian_discretization 3 = some (lapA 3) ∧
      (((univ : Finset (Fin (3 * 3))).filter
          (fun j => lapA 3 ⟨0, by norm_num⟩ j ≠ 0)).card = 5 ∧
        lapA 3 ⟨0, by norm_num⟩ ⟨0, by norm_num⟩ = -4 / (delta_x 3) ^ 2 ∧
        ((univ : Finset (Fin (3 * 3))).filter
          (fun j => j ≠ ⟨0, by norm_num⟩ ∧
            lapA 3 ⟨0, by norm_num⟩ j = 1 / (delta_x 3) ^ 2)).card = 4) :=
  ⟨le_refl 3, lap_eq_some 3 (by norm_num),
    laplacian_five_entries_per_row 3 (le_refl 3) (lapA 3) (lap_eq_some 3 (by norm_num))
      ⟨0, by norm_num⟩⟩

/-- C5 counterexample: at `m = 2` row `0` of the assembled matrix has three non-zero
entries, not five. -/
theorem laplacian_five_entries_m2_counterexample :
    laplacian_discretization 2 = some (lapA 2) ∧
    ((univ : Finset (Fin (2 * 2))).filter
      (fun j => lapA 2 ⟨0, by norm_num⟩ j ≠ 0)).card = 3 ∧
    (3 : ℕ) ≠ 5 :=
  ⟨lap_eq_some 2 (le_refl 2), lapA2_card3 _, by norm_num⟩

/-- C10: at the minimum grid size `m = 2` the interior and periodic-wrap couplings
merge: each row of `laplacian_discretization(2)` has exactly three non-zero entries —
the diagonal `-4/Δx²` and two off-diagonal entries of value `2/Δx²` — and the matrix
is still symmetric with every row summing to zero. -/
theorem laplacian_m2_profile :
    laplacian_discretization 2 = some (lapA 2) ∧
    (∀ i, lapA 2 i i = -4 / (delta_x 2) ^ 2) ∧
    (∀ i j, i = j ∨ lapA 2 i j = 0 ∨ lapA 2 i j = 2 / (delta_x 2) ^ 2) ∧
    (∀ i, ((univ : Finset (Fin (2 * 2))).filter (fun j => lapA 2 i j ≠ 0)).card = 3) ∧
    (∀ i, ((univ : Finset (Fin (2 * 2))).filter
        (fun j => j ≠ i ∧ lapA 2 i j = 2 / (delta_x 2) ^ 2)).card = 2) ∧
    (∀ i j, lapA 2 i j = lapA 2 j i) ∧
    (∀ i, ∑ j, lapA 2 i j = 0) :=
  ⟨lap_eq_some 2 (le_refl 2), lapA_diag 2 (le_refl 2), lapA2_tri, lapA2_card3,
    lapA2_card2, lapA_symm 2 (le_refl 2), lapA_row_sum 2 (le_refl 2)⟩

/-! ## Scenario 1: pure diffusion on the 4 x 4 grid -/

lemma sum_mulVec_zero (m : ℕ) (hm : 2 ≤ m) (U : Fin (m * m) → ℚ) :
    ∑ i, (lapA m *ᵥ U) i = 0 := by
  have h : ∑ i, (lapA m *ᵥ U) i = ∑ j, (∑ i, lapA m i j) * U j := by
    simp only [Matrix.mulVec, dotProduct]
    rw [Finset.sum_comm]
    exact Finset.sum_congr rfl (fun j _ => (Finset.sum_mul _ _ _).symm)
  rw [h]
  exact Finset.sum_eq_zero (fun j _ => by rw [lapA_col_sum m hm j, zero_mul])

/-- With `beta ≠ 0` and `V = 0`, the scenario-1 reaction terms vanish and a step is a
pure diffusion update of `U`; `V` stays zero. -/
lemma scenario1_step_V0 (beta : ℚ) (hb : beta ≠ 0) (U : Fin (4 * 4) → ℚ) :
    scenario1_step beta (U, 0) =
      some (U + scenario1_delta_t • (lapA 4 *ᵥ U), 0) := by
  unfold scenario1_step forward_euler_step
  rw [vecOption_some (fun _ => 0) _ (fun i => by
        show some (f_reaction (U i) 0 1 0 0 0 beta 0) = some 0
        unfold f_reaction; norm_num),
    vecOption_some (fun _ => 0) _ (fun i => by
        show g_reaction (U i) 0 1 0 0 0 beta 0 = some 0
        unfold g_reaction
        rw [if_neg hb]
        congr 1
        ring)]
  simp only [Option.some_bind]
  refine congrArg some ?_
  rw [Prod.mk.injEq]
  constructor
  · funext i
    simp only [Pi.add_apply, Pi.smul_apply, smul_eq_mul]
    ring
  · funext i
    simp only [Matrix.mulVec_zero, Pi.add_apply, Pi.smul_apply, Pi.zero_apply, smul_eq_mul,
      smul_zero, zero_add, add_zero, mul_zero]

/-- C7 (amended): in scenario 1 (`m = 4`, `σ = 1`, `D1 = D2 = 1`,
`τ1 = τ2 = α = γ = 0`, `Δt = Δx²/(4σ)`) with the `g`-division guarded (`β ≠ 0`) and
zero initial `V`, the explicit stepper runs for any number of steps, keeps `V = 0`,
and conserves the sum of `U` over the grid. -/
theorem scenario1_conserves_sum (beta : ℚ) (hb : beta ≠ 0)
    (U : Fin (4 * 4) → ℚ) (n : ℕ) :
    ∃ W : (Fin (4 * 4) → ℚ) × (Fin (4 * 4) → ℚ),
      stepsN (scenario1_step beta) n (U, 0) = some W ∧ W.2 = 0 ∧
      ∑ i, W.1 i = ∑ i, U i := by
  induction n generalizing U with
  | zero => exact ⟨(U, 0), rfl, rfl, rfl⟩
  | succ n ih =>
    obtain ⟨W, hW, hW2, hWsum⟩ := ih (U + scenario1_delta_t • (lapA 4 *ᵥ U))
    refine ⟨W, ?_, hW2, ?_⟩
    · show (scenario1_step beta (U, 0)).bind (stepsN (scenario1_step beta) n) = some W
      rw [scenario1_step_V0 beta hb U, Option.some_bind]
      exact hW
    · rw [hWsum]
      have hsum : ∑ i, (U + scenario1_delta_t • (lapA 4 *ᵥ U)) i
          = ∑ i, U i + scenario1_delta_t * ∑ i, (lapA 4 *ᵥ U) i := by
        simp only [Pi.add_apply, Pi.smul_apply, smul_eq_mul]
        rw [Finset.sum_add_distrib, ← Finset.mul_sum]
      rw [hsum, sum_mulVec_zero 4 (by norm_num) U, mul_zero, add_zero]

theorem scenario1_conserves_sum_witness :
    (1 : ℚ) ≠ 0 ∧
      (∃ W : (Fin (4 * 4) → ℚ) × (Fin (4 * 4) → ℚ),
        stepsN (scenario1_step 1) 0 (0, 0) = some W ∧ W.2 = 0 ∧
        ∑ i, W.1 i = ∑ i, (0 : Fin (4 * 4) → ℚ) i) :=
  ⟨one_ne_zero, scenario1_conserves_sum 1 one_ne_zero 0 0⟩

/-- C7 counterexample.  First conjunct: at the claim's own parameters (`β = 0`), even
one step from the zero state fails with a `ZeroDivisionError` in `g_reaction`, so no
state "after n steps" exists.  Remaining conjuncts: escaping the division error by
taking `β = 1` instead, one step from `U = 0, V = 1` gives `∑ U = 16·Δt ≠ 0 = ∑ U₀`,
because `f_reaction` is not zero at these parameters (`f(U,V) = V`), so the sum of
`U` is still not conserved. -/
theorem scenario1_counterexample :
    stepsN (scenario1_step 0) 1 (0, 0) = none ∧
    (stepsN (scenario1_step 1) 1 (0, fun _ => 1)).map (fun s => ∑ i, s.1 i) =
      some (16 * scenario1_delta_t) ∧
    (16 * scenario1_delta_t : ℚ) ≠ ∑ i, (0 : Fin (4 * 4) → ℚ) i := by
  refine ⟨?_, ?_, ?_⟩
  · show (scenario1_step 0 (0, 0)).bind (stepsN (scenario1_step 0) 0) = none
    have hg : scenario1_step 0 (0, 0) = none := by
      unfold scenario1_step forward_euler_step
      rw [vecOption_some (fun _ => 0) _ (fun i => by
            show some (f_reaction 0 0 1 0 0 0 0 0) = some 0
            unfold f_reaction; norm_num),
        Option.some_bind,
        vecOption_none _ ⟨0, by norm_num⟩ (by
          show g_reaction 0 0 1 0 0 0 0 0 = none
          unfold g_reaction
          rw [if_pos rfl])]
      rfl
    rw [hg]
    rfl
  · have hstep : scenario1_step 1 (0, fun _ => 1) =
        some (fun _ => scenario1_delta_t, fun _ => 1 + scenario1_delta_t) := by
      unfold scenario1_step forward_euler_step
      rw [vecOption_some (fun _ => 1) _ (fun i => by
            show some (f_reaction 0 1 1 0 0 0 1 0) = some 1
            unfold f_reaction; norm_num),
        vecOption_some (fun _ => 1) _ (fun i => by
            show g_reaction 0 1 1 0 0 0 1 0 = some 1
            unfold g_reaction
            norm_num)]
      simp only [Option.some_bind]
      refine congrArg some ?_
      rw [Prod.mk.injEq]
      constructor
      · funext i
        simp only [Matrix.mulVec_zero, Pi.add_apply, Pi.smul_apply, Pi.zero_apply,
          smul_eq_mul, smul_zero, zero_add, add_zero, mul_zero]
        norm_num
      · funext i
        simp only [Pi.add_apply, Pi.smul_apply, smul_eq_mul]
        rw [show (lapA 4 *ᵥ fun _ => (1 : ℚ)) = 0 from lapA_mulVec_const 4 (by norm_num) 1]
        simp only [Pi.zero_apply]
        norm_num
    show ((scenario1_step 1 (0, fun _ => 1)).bind
        (stepsN (scenario1_step 1) 0)).map (fun s => ∑ i, s.1 i) =
      some (16 * scenario1_delta_t)
    rw [hstep]
    show some (∑ _i : Fin (4 * 4), scenario1_delta_t) = some (16 * scenario1_delta_t)
    rw [Finset.sum_const, Finset.card_univ]
    norm_num [mul_comm]
  · have : (0 : ℚ) < scenario1_delta_t := by
      norm_num [scenario1_delta_t, delta_x]
    simp only [Pi.zero_apply, Finset.sum_const_zero]
    positivity

/-! ## The IMEX loop body -/

lemma imex_forward_step_eq (Us Vs : Fin (150 * 150) → ℚ) :
    forward_euler_step Us Vs imex_delta_t (lapA 150) imex_sigma imex_f imex_g (1 / 2) 1 =
      some (Us + imex_delta_t • ((imex_sigma * (1 / 2)) • (lapA 150 *ᵥ Us) +
              fun i => f_reaction (Us i) (Vs i) imex_sigma imex_tau_1 imex_tau_2
                imex_alpha imex_beta imex_gamma),
            Vs + imex_delta_t • ((imex_sigma * 1) • (lapA 150 *ᵥ Vs) +
              fun i => imex_beta * Vs i *
                  (1 + imex_alpha * imex_tau_1 / imex_beta * Us i * Vs i) +
                Us i * (imex_gamma + imex_tau_2 * Vs i))) := by
  unfold forward_euler_step
  rw [vecOption_some (fun i => f_reaction (Us i) (Vs i) imex_sigma imex_tau_1 imex_tau_2
        imex_alpha imex_beta imex_gamma) (fun i => imex_f (Us i) (Vs i)) (fun i => rfl),
    vecOption_some (fun i => imex_beta * Vs i *
        (1 + imex_alpha * imex_tau_1 / imex_beta * Us i * Vs i) +
        Us i * (imex_gamma + imex_tau_2 * Vs i)) (fun i => imex_g (Us i) (Vs i)) (fun i => by
      show imex_g (Us i) (Vs i) = some _
      unfold imex_g g_reaction
      rw [if_neg (by norm_num [imex_beta])])]
  rfl

/-- C2 (amended): in every iteration of `imex_solver`, the second phase applies the
full `forward_euler_step` — its explicit diffusion term included, with the default
coefficients `D1 = 0.5`, `D2 = 1.0` — to the post-diffusion values `U*`, `V*` produced
by phase 1, not a reaction-only update of the raw pre-diffusion state. -/
theorem imex_phase2_full_forward_euler (U V U1 V1 : Fin (150 * 150) → ℚ) :
    imex_solver_body U V U1 V1 ↔
      ∃ Us Vs : Fin (150 * 150) → ℚ,
        diffusion_system_matrix (lapA 150) imex_delta_t imex_sigma (1 / 2) *ᵥ Us = U ∧
        diffusion_system_matrix (lapA 150) imex_delta_t imex_sigma 1 *ᵥ Vs = V ∧
        U1 = Us + imex_delta_t • ((imex_sigma * (1 / 2)) • (lapA 150 *ᵥ Us) +
          fun i => f_reaction (Us i) (Vs i) imex_sigma imex_tau_1 imex_tau_2 imex_alpha
            imex_beta imex_gamma) ∧
        V1 = Vs + imex_delta_t • ((imex_sigma * 1) • (lapA 150 *ᵥ Vs) +
          fun i => imex_beta * Vs i *
              (1 + imex_alpha * imex_tau_1 / imex_beta * Us i * Vs i) +
            Us i * (imex_gamma + imex_tau_2 * Vs i)) := by
  constructor
  · rintro ⟨Us, Vs, ⟨h1, h2⟩, hstep⟩
    rw [imex_forward_step_eq Us Vs] at hstep
    obtain ⟨hU, hV⟩ := Prod.mk.injEq _ _ _ _ ▸ Option.some.inj hstep
    exact ⟨Us, Vs, h1, h2, hU.symm, hV.symm⟩
  · rintro ⟨Us, Vs, h1, h2, hU, hV⟩
    refine ⟨Us, Vs, ⟨h1, h2⟩, ?_⟩
    rw [imex_forward_step_eq Us Vs, hU, hV]

/-- Unit impulse at cell `0` of the `m = 150` grid. -/
def c2e : Fin (150 * 150) → ℚ := fun k => if k = ⟨0, by norm_num⟩ then 1 else 0

/-- A pre-diffusion state chosen so that phase 1 produces exactly the impulse `c2e`. -/
def c2U : Fin (150 * 150) → ℚ :=
  diffusion_system_matrix (lapA 150) imex_delta_t imex_sigma (1 / 2) *ᵥ c2e

/-- The actual phase-2 output for `U` in that iteration. -/
def c2U1 : Fin (150 * 150) → ℚ :=
  c2e + imex_delta_t • ((imex_sigma * (1 / 2)) • (lapA 150 *ᵥ c2e) +
    fun i => imex_alpha * c2e i)

/-- The actual phase-2 output for `V` in that iteration. -/
def c2V1 : Fin (150 * 150) → ℚ :=
  (0 : Fin (150 * 150) → ℚ) + imex_delta_t •
    ((imex_sigma * 1) • (lapA 150 *ᵥ (0 : Fin (150 * 150) → ℚ)) +
      fun i => c2e i * imex_gamma)

lemma c2_step :
    forward_euler_step c2e 0 imex_delta_t (lapA 150) imex_sigma imex_f imex_g (1 / 2) 1 =
      some (c2U1, c2V1) := by
  unfold forward_euler_step
  rw [vecOption_some (fun i => imex_alpha * c2e i) _ (fun i => by
        show some (f_reaction (c2e i) 0 imex_sigma imex_tau_1 imex_tau_2 imex_alpha
          imex_beta imex_gamma) = some (imex_alpha * c2e i)
        congr 1
        unfold f_reaction
        ring),
    vecOption_some (fun i => c2e i * imex_gamma) _ (fun i => by
        show imex_g (c2e i) 0 = some (c2e i * imex_gamma)
        unfold imex_g g_reaction
        rw [if_neg (by norm_num [imex_beta])]
        congr 1
        ring)]
  rfl

lemma c2_body : imex_solver_body c2U 0 c2U1 c2V1 :=
  ⟨c2e, 0, ⟨rfl, Matrix.mulVec_zero _⟩, c2_step⟩

lemma mulVec_c2e (i : Fin (150 * 150)) :
    (lapA 150 *ᵥ c2e) i = lapA 150 i ⟨0, by norm_num⟩ := by
  show ∑ j, lapA 150 i j * c2e j = _
  rw [Finset.sum_eq_single (⟨0, by norm_num⟩ : Fin (150 * 150))]
  · unfold c2e
    rw [if_pos rfl, mul_one]
  · intro b _ hb
    unfold c2e
    rw [if_neg hb, mul_zero]
  · exact fun h => absurd (Finset.mem_univ _) h

lemma lapA150_entry10 :
    lapA 150 ⟨1, by norm_num⟩ ⟨0, by norm_num⟩ = 1 / (delta_x 150) ^ 2 := by
  rw [lapA_stencil 150 (by norm_num), if_neg (by decide), if_pos (by decide)]

lemma c2U1_at : c2U1 ⟨1, by norm_num⟩ = 22801 / 6000 := by
  unfold c2U1
  simp only [Pi.add_apply, Pi.smul_apply, smul_eq_mul]
  rw [mulVec_c2e, lapA150_entry10]
  unfold c2e
  rw [if_neg (by decide)]
  norm_num [imex_delta_t, imex_delta_x, imex_sigma, imex_alpha, delta_x]

lemma c2U_at : c2U ⟨1, by norm_num⟩ = -(22801 / 6000) := by
  unfold c2U diffusion_system_matrix
  rw [Matrix.sub_mulVec, Matrix.smul_mulVec_assoc, Matrix.one_mulVec]
  simp only [Pi.sub_apply, Pi.smul_apply, smul_eq_mul]
  rw [mulVec_c2e, lapA150_entry10]
  unfold c2e
  rw [if_neg (by decide)]
  norm_num [imex_delta_t, imex_delta_x, imex_sigma, delta_x]

/-- C2 counterexample: a concrete iteration of `imex_solver` (reference parameters,
`m = 150`) in which the second phase's output is not the claimed reaction-only update
of the raw pre-diffusion state: at cell `1` the actual output is `+22801/6000` while
the claimed `U + Δt·f(U, V)` is negative — the code instead applies the full
forward-Euler step (explicit diffusion term included) to the post-diffusion state. -/
theorem imex_phase2_counterexample :
    laplacian_discretization 150 = some (lapA 150) ∧
    imex_solver_body c2U 0 c2U1 c2V1 ∧
    c2U1 ⟨1, by norm_num⟩ ≠
      c2U ⟨1, by norm_num⟩ + imex_delta_t *
        f_reaction (c2U ⟨1, by norm_num⟩) ((0 : Fin (150 * 150) → ℚ) ⟨1, by norm_num⟩)
          imex_sigma imex_tau_1 imex_tau_2 imex_alpha imex_beta imex_gamma := by
  refine ⟨lap_eq_some 150 (by norm_num), c2_body, ?_⟩
  rw [c2U1_at, c2U_at]
  unfold f_reaction
  norm_num [imex_delta_t, imex_delta_x, imex_sigma, imex_alpha, imex_tau_1, imex_tau_2]

end ReactionDiffusion
